import Mathlib

/-!
Verification development for the Zernike polynomial module (zernike.py).

The module converts between Noll indices and (radial, azimuthal) degree
pairs and evaluates Zernike polynomials on polar sample grids.  We embed
the module shallowly:

* numpy integer arrays become `List ℤ` (positions/ranks use `ℕ`);
* float arrays become `List ℝ`; the grid `(r, theta)` is a pair of lists
  of matching length, zipped pointwise (the ≤2-dimensional numpy shapes
  are abstracted to their flattened contents);
* the external scipy collaborators `scipy.special.binom` and
  `scipy.special.hyp2f1` are parameters of the evaluator (`B` and `F`):
  the repository does not define them, so every theorem below holds for
  an arbitrary interpretation of them;
* numpy's dtype check `np.issubdtype(x.dtype, int)` is a property of the
  array object, not of its values (an integral-valued float array still
  fails it), so it is embedded as a boolean flag on each input array;
* a python `ValueError` (the spec's `InvalidInputError`) and a numpy
  out-of-bounds `IndexError` are the two failure constructors of
  `PyResult`;
* Lean's real division is total (`x / 0 = 0`) while numpy's float
  division by a zero norm yields NaN or `±inf`: `_zernike` is the
  exact-real model of the evaluator, and `pyDiv`/`_zernikeF` refine its
  normalization step with the IEEE zero-division outcomes, so the
  degenerate case in which the program emits NaN (normalization enabled
  on an identically-zero unnormalized array) is representable.
-/

/-- Outcome of a python call in the embedding: a normal return, a
`ValueError` raised by the module's own validation (the spec calls this
`InvalidInputError`), or an `IndexError` raised by numpy indexing. -/
inductive PyResult (α : Type) where
  | ok (val : α) : PyResult α
  | valueError : PyResult α
  | indexError : PyResult α
  deriving DecidableEq, Repr

/-- The hardcoded forward mapping of Noll indices (`noll_mapping`),
transcribed verbatim from the source. -/
def nollMappingList : List ℤ := [
  1, 3, 2, 5, 4, 6, 9, 7, 8, 10, 15, 13, 11, 12, 14, 21, 19, 17, 16,
  18, 20, 27, 25, 23, 22, 24, 26, 28, 35, 33, 31, 29, 30, 32, 34,
  36, 45, 43, 41, 39, 37, 38, 40, 42, 44, 55, 53, 51, 49, 47, 46,
  48, 50, 52, 54, 65, 63, 61, 59, 57, 56, 58, 60, 62, 64, 66, 77,
  75, 73, 71, 69, 67, 68, 70, 72, 74, 76, 78, 91, 89, 87, 85, 83,
  81, 79, 80, 82, 84, 86, 88, 90, 105, 103, 101, 99, 97, 95, 93,
  92, 94, 96, 98, 100, 102, 104, 119, 117, 115, 113, 111, 109,
  107, 106, 108, 110, 112, 114, 116, 118, 120]

/-- `noll_inverse = noll_mapping.argsort()`.  `noll_mapping` is a
permutation of `1..120`, so the `k`-th entry of its argsort is the
position at which the value `k+1` sits. -/
def nollInverse : List ℕ :=
  (List.range nollMappingList.length).map
    (fun k => nollMappingList.indexOf ((k : ℤ) + 1))

/-- The radial degree recovered from a rank `p`:
`n = ceil((-3 + sqrt(9 + 8 p)) / 2)`.  For an integer `n ≥ 0`,
`n ≥ (-3 + sqrt(9 + 8 p)) / 2  ↔  (2 n + 3)^2 ≥ 9 + 8 p  ↔  n (n + 3) ≥ 2 p`,
so the ceiling is the least such `n`; `n = p` always qualifies, hence
the bounded search below is total.  (For `p < 120` the float `sqrt` and
`ceil` in the source are exact on these small integers.) -/
def nFromP (p : ℕ) : ℕ :=
  (((List.range (p + 2)).filter (fun n => decide (2 * p ≤ n * (n + 3)))).headD 0)

/-- The degree pair computed from a rank `p`: the source's
`n = ceil(...)` and `m = 2 * p - n * (n + 2)`. -/
def pairFromP (p : ℕ) : ℕ × ℤ :=
  (nFromP p, 2 * (p : ℤ) - (nFromP p : ℤ) * ((nFromP p : ℤ) + 2))

/-- One scalar lane of `noll2degrees` after validation: index into
`noll_inverse` (raising `IndexError`, i.e. `none`, when out of range —
the validated index is positive so no negative wrap can occur) and apply
the degree formulas. -/
def oneNollPair (j : ℤ) : Option (ℕ × ℤ) :=
  (nollInverse.get? (j - 1).toNat).map pairFromP

/-- All-or-nothing elementwise lookup, modelling one vectorized numpy
fancy-indexing operation: any out-of-bounds lane fails the whole call. -/
def optMap {α β : Type} (f : α → Option β) : List α → Option (List β)
  | [] => some []
  | a :: as =>
    match f a, optMap f as with
    | some b, some bs => some (b :: bs)
    | _, _ => none

/-- `noll2degrees(noll)`: reject non-integer dtype, reject any value
`≤ 0`, then map each index through `noll_inverse` and the degree
formulas.  `ints` is the dtype-is-integer flag of the input array. -/
def noll2degrees (ints : Bool) (noll : List ℤ) : PyResult (List (ℕ × ℤ)) :=
  if ints = false then .valueError
  else if ¬ (∀ j ∈ noll, 0 < j) then .valueError
  else
    match optMap oneNollPair noll with
    | some l => .ok l
    | none => .indexError

/-- numpy integer indexing into `noll_mapping`: in-range indices read
directly, negative indices down to `-len` wrap, anything else raises
`IndexError`. -/
def nollMappingLookup (p : ℤ) : Option ℤ :=
  if 0 ≤ p then nollMappingList.get? p.toNat
  else if -(nollMappingList.length : ℤ) ≤ p then
    nollMappingList.get? ((nollMappingList.length : ℤ) + p).toNat
  else none

/-- `degrees2noll(n, m)`: reject non-integer dtypes, reject any pair
with `(n - m)` odd, then look up `noll_mapping[(m + n * (n + 2)) / 2]`.
After the parity check `m + n * (n + 2)` is even, so the source's float
division and `astype(int)` are the exact integer division used here.
`intsN`/`intsM` are the dtype flags of the two input arrays. -/
def degrees2noll (intsN intsM : Bool) (pairs : List (ℤ × ℤ)) : PyResult (List ℤ) :=
  if intsN = false then .valueError
  else if intsM = false then .valueError
  else if ∃ q ∈ pairs, (q.1 - q.2) % 2 ≠ 0 then .valueError
  else
    match optMap (fun q : ℤ × ℤ => nollMappingLookup ((q.2 + q.1 * (q.1 + 2)) / 2)) pairs with
    | some l => .ok l
    | none => .indexError

/-- Euclidean norm of a flattened array: `np.linalg.norm(v.ravel())`. -/
noncomputable def l2norm (v : List ℝ) : ℝ :=
  Real.sqrt ((v.map (fun x => x ^ 2)).sum)

/-- One sample point of `_radial_zernike`: points with `r > 1` keep the
initial zero; `(n, m) = (0, 0)` is the special-cased constant 1; the
general branch is `binom(n, (n+m)//2) * r^n * hyp2f1(-(n+m)//2,
-(n-m)//2, -n, r^(-2))` with python floor division `//` and the external
scipy functions `B` and `F`. -/
noncomputable def radialPoint (B : ℕ → ℤ → ℝ) (F : ℤ → ℤ → ℤ → ℝ → ℝ)
    (n : ℕ) (m : ℤ) (x : ℝ) : ℝ :=
  if x ≤ 1 then
    if m = 0 ∧ n = 0 then 1
    else
      B n (((n : ℤ) + m).fdiv 2) * x ^ n *
        F (-(((n : ℤ) + m).fdiv 2)) (-(((n : ℤ) - m).fdiv 2)) (-(n : ℤ)) ((x ^ 2)⁻¹)
  else 0

/-- `_radial_zernike(r, n, m)` over the whole radius array. -/
noncomputable def _radial_zernike (B : ℕ → ℤ → ℝ) (F : ℤ → ℤ → ℤ → ℝ → ℝ)
    (r : List ℝ) (n : ℕ) (m : ℤ) : List ℝ :=
  r.map (radialPoint B F n m)

/-- The unnormalized array `zern` built inside `_zernike`: the radial
factor multiplied pointwise by the angular factor, `sin(m*theta)` for
`m < 0` (odd zernike) and `cos(m*theta)` otherwise (even zernike). -/
noncomputable def zernRaw (B : ℕ → ℤ → ℝ) (F : ℤ → ℤ → ℤ → ℝ → ℝ)
    (r θ : List ℝ) (n : ℕ) (m : ℤ) : List ℝ :=
  ((_radial_zernike B F r n m).zip θ).map
    (fun p => p.1 * (if m < 0 then Real.sin ((m : ℝ) * p.2) else Real.cos ((m : ℝ) * p.2)))

/-- `_zernike(r, theta, n, m, norm=True)`: the defensive parity guard
returning zeros, then the radial-times-angular array `zernRaw`, divided
by its own Euclidean norm when `norm` is set. -/
noncomputable def _zernike (B : ℕ → ℤ → ℝ) (F : ℤ → ℤ → ℤ → ℝ → ℝ)
    (r θ : List ℝ) (n : ℕ) (m : ℤ) (norm : Bool := true) : List ℝ :=
  if (m - (n : ℤ)) % 2 ≠ 0 then r.map (fun _ => 0)
  else if norm then
    (zernRaw B F r θ n m).map (fun x => x / l2norm (zernRaw B F r θ n m))
  else zernRaw B F r θ n m

/-- An IEEE-754 result lane of the normalization division.  Lean's real
division is total with `x / 0 = 0`, while numpy's float division of a
zero array norm produces NaN (`0.0 / 0.0`) or signed infinities
(`x / 0.0` for `x` nonzero); this type makes those outcomes
representable so the degenerate division path of the program is not
collapsed by the real-number convention. -/
inductive PyVal where
  | num (x : ℝ) : PyVal
  | posinf : PyVal
  | neginf : PyVal
  | nan : PyVal

/-- numpy float division `x / N` with the IEEE zero-divisor outcomes:
`0.0 / 0.0` is NaN, `x / 0.0` is `±inf` for nonzero `x`, and an
ordinary quotient otherwise. -/
noncomputable def pyDiv (x N : ℝ) : PyVal :=
  if N = 0 then
    if x = 0 then .nan
    else if 0 < x then .posinf
    else .neginf
  else .num (x / N)

/-- `_zernike` with the normalization division kept at numpy's IEEE
semantics (`pyDiv`) instead of Lean's total real division: the program's
`zern /= np.linalg.norm(zern.ravel())` turns an identically-zero `zern`
(zero norm) into an array of NaN, which `_zernike` over `ℝ` cannot
express.  Wherever no zero division occurs the two agree
(`zernikeF_agrees` below). -/
noncomputable def _zernikeF (B : ℕ → ℤ → ℝ) (F : ℤ → ℤ → ℤ → ℝ → ℝ)
    (r θ : List ℝ) (n : ℕ) (m : ℤ) (norm : Bool := true) : List PyVal :=
  if (m - (n : ℤ)) % 2 ≠ 0 then r.map (fun _ => .num 0)
  else if norm then
    (zernRaw B F r θ n m).map (fun x => pyDiv x (l2norm (zernRaw B F r θ n m)))
  else (zernRaw B F r θ n m).map .num

/-- The batch entry point `zernike(r, theta, nolls, norm=...)` on the
Noll-sequence form of the selector: resolve every index through
`noll2degrees`, then evaluate `_zernike` once per degree pair and stack
the rows in order.  The output keeps the leading per-polynomial axis
(the final `squeeze` only reshapes; the claims compare contents). -/
noncomputable def zernike (B : ℕ → ℤ → ℝ) (F : ℤ → ℤ → ℤ → ℝ → ℝ)
    (r θ : List ℝ) (nolls : List ℤ) (norm : Bool := true) :
    PyResult (List (List ℝ)) :=
  match noll2degrees true nolls with
  | .ok nm => .ok (nm.map (fun q => _zernike B F r θ q.1 q.2 norm))
  | .valueError => .valueError
  | .indexError => .indexError

/-!
Spec-side definitions.  The spec (§4.1) states a generative rule for
Noll's canonical ordering; the following definitions follow the spec's
words, to be compared with the source's hardcoded table.
-/

/-- Follows the spec's ordering rule (§4.1), row for radial degree `n`:
enumerate `|m|` of the same parity as `n` in increasing order; `|m| = 0`
consumes one index; `|m| > 0` consumes two consecutive indices for the
two signs, with the sign receiving the lower index keyed on `n mod 4`
(positive `m` takes the lower index when `n mod 4 ∈ {0, 1}`, the
reverse when `n mod 4 ∈ {2, 3}`). -/
def specNollRow (n : ℕ) : List (ℕ × ℤ) :=
  ((List.range (n + 1)).filter (fun a => decide (a % 2 = n % 2))).flatMap
    (fun a =>
      if a = 0 then [(n, (0 : ℤ))]
      else if n % 4 < 2 then [(n, (a : ℤ)), (n, -(a : ℤ))]
      else [(n, -(a : ℤ)), (n, (a : ℤ))])

/-- Follows the spec's ordering rule: all degree pairs in Noll-index
order, rows `n = 0, 1, 2, ...` concatenated; position `j - 1` holds the
pair of Noll index `j`.  Fifteen rows cover indices 1..120. -/
def specNollPairs : List (ℕ × ℤ) := (List.range 15).flatMap specNollRow

/-- The degree pairs sorted by `(n, m)` with `m` ascending: position `p`
holds the pair of rank `p = (m + n * (n + 2)) / 2`, the order in which
the source's table is indexed. -/
def specPOrder : List (ℕ × ℤ) :=
  (List.range 15).flatMap (fun n => (List.range (n + 1)).map (fun i => (n, 2 * (i : ℤ) - (n : ℤ))))

/-- The permutation table the spec's generative rule produces: for each
rank `p`, the (1-based) Noll index of the pair of rank `p`. -/
def specNollTable : List ℤ :=
  specPOrder.map (fun q => (specNollPairs.indexOf q : ℤ) + 1)

/-- The degree pair at rank `j` in the spec's generative Noll ordering
(junk value `(0, 0)` outside `1..120`). -/
def nollRankPair (j : ℤ) : ℕ × ℤ :=
  (specNollPairs.get? (j - 1).toNat).getD (0, 0)

/-- A concrete (arbitrary) interpretation of `scipy.special.binom`,
used only to instantiate witnesses of theorems that hold for every
interpretation of the external collaborators. -/
noncomputable def extB : ℕ → ℤ → ℝ := fun _ _ => 0

/-- A concrete (arbitrary) interpretation of `scipy.special.hyp2f1`,
used only to instantiate witnesses. -/
noncomputable def extF : ℤ → ℤ → ℤ → ℝ → ℝ := fun _ _ _ _ => 0

/-!  Helper lemmas. -/

lemma optMap_eq_map {α β : Type} (f : α → Option β) (g : α → β) :
    ∀ l : List α, (∀ a ∈ l, f a = some (g a)) → optMap f l = some (l.map g) := by
  intro l
  induction l with
  | nil => intro _; rfl
  | cons a as ih =>
    intro h
    have ha : f a = some (g a) := h a (List.mem_cons_self a as)
    have has : optMap f as = some (as.map g) :=
      ih (fun b hb => h b (List.mem_cons_of_mem a hb))
    simp [optMap, ha, has]

lemma optMap_some {α β : Type} (f : α → Option β) :
    ∀ (l : List α) (res : List β), optMap f l = some res →
      res.length = l.length ∧
      ∀ i (h1 : i < l.length) (h2 : i < res.length),
        f (l.get ⟨i, h1⟩) = some (res.get ⟨i, h2⟩) := by
  intro l
  induction l with
  | nil =>
    intro res h
    simp only [optMap] at h
    cases h
    exact ⟨rfl, fun i h1 _ => absurd h1 (Nat.not_lt_zero i)⟩
  | cons a as ih =>
    intro res h
    simp only [optMap] at h
    cases ha : f a with
    | none => rw [ha] at h; cases h
    | some b =>
      rw [ha] at h
      cases has : optMap f as with
      | none => rw [has] at h; cases h
      | some bs =>
        rw [has] at h
        cases h
        obtain ⟨hlen, hget⟩ := ih bs has
        refine ⟨by simp [hlen], ?_⟩
        intro i h1 h2
        cases i with
        | zero => simpa using ha
        | succ k =>
          simpa using hget k (Nat.lt_of_succ_lt_succ h1) (Nat.lt_of_succ_lt_succ h2)

lemma get?_zip {α β : Type} :
    ∀ (a : List α) (b : List β) (i : ℕ) (x : α) (y : β),
      a.get? i = some x → b.get? i = some y → (a.zip b).get? i = some (x, y) := by
  intro a
  induction a with
  | nil => intro b i x y hx _; simp at hx
  | cons ha ta ih =>
    intro b i x y hx hy
    cases b with
    | nil => simp at hy
    | cons hb tb =>
      cases i with
      | zero =>
        simp only [List.get?] at hx hy
        cases hx; cases hy
        rfl
      | succ k =>
        simp only [List.get?] at hx hy ⊢
        exact ih tb k x y hx hy

lemma sum_map_zero : ∀ r : List ℝ, (r.map (fun _ => (0 : ℝ))).sum = 0 := by
  intro r
  induction r with
  | nil => rfl
  | cons a as ih => simp [ih]

lemma sum_sq_nonneg (v : List ℝ) : 0 ≤ (v.map (fun x => x ^ 2)).sum := by
  apply List.sum_nonneg
  intro a ha
  obtain ⟨x, _, rfl⟩ := List.mem_map.mp ha
  exact sq_nonneg x

lemma sum_sq_map_div (c : ℝ) :
    ∀ v : List ℝ, ((v.map (fun x => x / c)).map (fun x => x ^ 2)).sum
      = (v.map (fun x => x ^ 2)).sum / c ^ 2 := by
  intro v
  induction v with
  | nil => simp
  | cons a as ih =>
    simp only [List.map_cons, List.sum_cons, ih, div_pow, add_div]

lemma l2norm_map_div (v : List ℝ) (h : l2norm v ≠ 0) :
    l2norm (v.map (fun x => x / l2norm v)) = 1 := by
  have hS : 0 ≤ (v.map (fun x => x ^ 2)).sum := sum_sq_nonneg v
  have hS0 : (v.map (fun x => x ^ 2)).sum ≠ 0 := by
    intro h0
    exact h (by simp [l2norm, h0, Real.sqrt_zero])
  have hsq : (l2norm v) ^ 2 = (v.map (fun x => x ^ 2)).sum := Real.sq_sqrt hS
  rw [l2norm, sum_sq_map_div, hsq, div_self hS0, Real.sqrt_one]

lemma noll2degrees_ok (js : List ℤ) (nm : List (ℕ × ℤ))
    (h : noll2degrees true js = .ok nm) :
    (∀ j ∈ js, 0 < j) ∧ optMap oneNollPair js = some nm := by
  unfold noll2degrees at h
  rw [if_neg (by simp)] at h
  by_cases hall : ∀ j ∈ js, 0 < j
  · rw [if_neg (by simpa using hall)] at h
    refine ⟨hall, ?_⟩
    cases hm : optMap oneNollPair js with
    | none => rw [hm] at h; cases h
    | some l => rw [hm] at h; cases h; rfl
  · rw [if_pos (by simpa using hall)] at h
    cases h

lemma noll2degrees_singleton (j : ℤ) (q : ℕ × ℤ) (h0 : 0 < j)
    (hq : oneNollPair j = some q) :
    noll2degrees true [j] = .ok [q] := by
  unfold noll2degrees
  rw [if_neg (by simp), if_neg (by simpa using h0)]
  simp [optMap, hq]

set_option maxHeartbeats 2000000 in
set_option maxRecDepth 10000 in
lemma oneNollPair_rank : ∀ j ∈ Finset.Icc (1 : ℤ) 120,
    oneNollPair j = some (nollRankPair j) := by decide

set_option maxHeartbeats 4000000 in
set_option maxRecDepth 10000 in
/-- Claim C1: round-trip bijection of the index mapper.  For every Noll
index `j` in `1..120`, `noll2degrees` succeeds and returns the degree
pair `(n, m)` computed by the module, and `degrees2noll` maps that pair
back to `j`; consequently `degrees2noll(noll2degrees(j)) = j` and, for
every degree pair reachable from those indices,
`noll2degrees(degrees2noll(n, m)) = (n, m)`. -/
theorem noll_roundtrip :
    ∀ j ∈ Finset.Icc (1 : ℤ) 120,
      noll2degrees true [j] = PyResult.ok [(oneNollPair j).getD (0, 0)] ∧
      degrees2noll true true
        [(((((oneNollPair j).getD (0, 0)).1 : ℕ) : ℤ), ((oneNollPair j).getD (0, 0)).2)] =
        PyResult.ok [j] := by decide

set_option maxRecDepth 10000 in
/-- Witness for C1 at the concrete index `j = 5`. -/
theorem noll_roundtrip_witness :
    (5 : ℤ) ∈ Finset.Icc (1 : ℤ) 120 ∧
    noll2degrees true [5] = PyResult.ok [((2 : ℕ), (-2 : ℤ))] := by
  refine ⟨by decide, ?_⟩
  have h := (noll_roundtrip 5 (by decide)).1
  rw [h]
  decide

set_option maxHeartbeats 2000000 in
set_option maxRecDepth 10000 in
/-- Claim C2: the hardcoded 120-entry table `noll_mapping` is exactly
the permutation generated by the spec's rule — enumerate `n = 0, 1, ...`
and, per `n`, the values `|m|` of the parity of `n` in increasing order,
`|m| = 0` taking one index and `|m| > 0` two consecutive indices, the
sign taking the lower index keyed on `n mod 4` (positive `m` lower for
`n mod 4` in `{0, 1}`, reversed for `n mod 4` in `{2, 3}`). -/
theorem noll_mapping_spec_rule : nollMappingList = specNollTable := by decide

set_option maxHeartbeats 2000000 in
set_option maxRecDepth 10000 in
/-- Claim C3: the eleven classical ground-truth mappings of
`noll2degrees` on indices `1..11`. -/
theorem noll_known_mappings :
    noll2degrees true [1] = PyResult.ok [(0, 0)] ∧
    noll2degrees true [2] = PyResult.ok [(1, 1)] ∧
    noll2degrees true [3] = PyResult.ok [(1, -1)] ∧
    noll2degrees true [4] = PyResult.ok [(2, 0)] ∧
    noll2degrees true [5] = PyResult.ok [(2, -2)] ∧
    noll2degrees true [6] = PyResult.ok [(2, 2)] ∧
    noll2degrees true [7] = PyResult.ok [(3, -1)] ∧
    noll2degrees true [8] = PyResult.ok [(3, 1)] ∧
    noll2degrees true [9] = PyResult.ok [(3, -3)] ∧
    noll2degrees true [10] = PyResult.ok [(3, 3)] ∧
    noll2degrees true [11] = PyResult.ok [(4, 0)] := by
  refine ⟨?_, ?_, ?_, ?_, ?_, ?_, ?_, ?_, ?_, ?_, ?_⟩ <;> decide

set_option maxRecDepth 10000 in
/-- Counterexample for C7 as stated: `121` is a positive integer, yet
`noll2degrees` does not succeed on it (and does not raise the
validation error either) — the bounded `noll_inverse` table makes the
numpy indexing raise `IndexError`. -/
theorem noll2degrees_121_index_error :
    noll2degrees true [121] = PyResult.indexError := by decide

/-- Claim C7 (amended): `noll2degrees` raises the validation error
exactly when the input array is non-integer-typed or some value is
`≤ 0`; every array of positive integers `≤ 120` succeeds and returns,
for each index, the degree pair at that rank in Noll's canonical
ordering; positive indices above 120 instead fail with an out-of-bounds
`IndexError`. -/
theorem noll2degrees_contract (ints : Bool) (js : List ℤ) :
    (noll2degrees ints js = PyResult.valueError ↔
      (ints = false ∨ ∃ j ∈ js, j ≤ 0)) ∧
    ((∀ j ∈ js, 1 ≤ j ∧ j ≤ 120) → ints = true →
      noll2degrees ints js = PyResult.ok (js.map nollRankPair)) := by
  constructor
  · cases ints with
    | false => simp [noll2degrees]
    | true =>
      unfold noll2degrees
      rw [if_neg (by simp)]
      by_cases hall : ∀ j ∈ js, 0 < j
      · rw [if_neg (not_not_intro hall)]
        constructor
        · intro h
          cases hm : optMap oneNollPair js with
          | none => rw [hm] at h; cases h
          | some l => rw [hm] at h; cases h
        · rintro (h | ⟨j, hj, hle⟩)
          · cases h
          · exact absurd (hall j hj) (not_lt.mpr hle)
      · rw [if_pos hall]
        push_neg at hall
        obtain ⟨j, hj, h0⟩ := hall
        exact ⟨fun _ => Or.inr ⟨j, hj, by omega⟩, fun _ => rfl⟩
  · intro hb hint
    subst hint
    unfold noll2degrees
    rw [if_neg (by simp)]
    have hall : ∀ j ∈ js, 0 < j := fun j hj => by have := (hb j hj).1; omega
    rw [if_neg (not_not_intro hall)]
    rw [optMap_eq_map oneNollPair nollRankPair js
      (fun j hj => oneNollPair_rank j (Finset.mem_Icc.mpr ⟨(hb j hj).1, (hb j hj).2⟩))]

set_option maxRecDepth 10000 in
/-- Witness for C7: the array `[1, 5]` of positive integers in range
succeeds with the rank pairs, and `[0]` raises the validation error. -/
theorem noll2degrees_contract_witness :
    noll2degrees true [1, 5] = PyResult.ok [(0, 0), (2, -2)] ∧
    noll2degrees true [0] = PyResult.valueError := by
  constructor
  · have h := (noll2degrees_contract true [1, 5]).2 (by decide) rfl
    rw [h]
    decide
  · exact (noll2degrees_contract true [0]).1.mpr (Or.inr ⟨0, by decide, le_refl 0⟩)

/-- Claim C8: `degrees2noll` raises the validation error whenever one of
the inputs is non-integer-typed or some pair has `(n - m)` odd. -/
theorem degrees2noll_parity_reject (iN iM : Bool) (pairs : List (ℤ × ℤ))
    (h : iN = false ∨ iM = false ∨ ∃ q ∈ pairs, (q.1 - q.2) % 2 ≠ 0) :
    degrees2noll iN iM pairs = PyResult.valueError := by
  unfold degrees2noll
  split_ifs with h1 h2 h3
  · rfl
  · rfl
  · rfl
  · rcases h with h | h | h
    · exact absurd h h1
    · exact absurd h h2
    · exact absurd h h3

/-- Witness for C8 at the concrete pair `(n, m) = (2, 1)`, whose
difference is odd. -/
theorem degrees2noll_parity_reject_witness :
    degrees2noll true true [((2 : ℤ), (1 : ℤ))] = PyResult.valueError :=
  degrees2noll_parity_reject true true [(2, 1)] (Or.inr (Or.inr (by decide)))

lemma l2norm_zeros (r : List ℝ) : l2norm (r.map (fun _ => (0 : ℝ))) = 0 := by
  unfold l2norm
  rw [List.map_map]
  have hc : ((fun x => x ^ 2) ∘ fun _ : ℝ => (0 : ℝ)) = fun _ : ℝ => (0 : ℝ) := by
    funext y
    simp
  rw [hc, sum_map_zero, Real.sqrt_zero]

/-- In the exact-real model `_zernike` (whose division is Lean's total
`x / 0 = 0`), every sample with radius above 1 evaluates to 0; this is
the computation the program performs except on the zero-division path,
which `zernikeF_agrees` rules out under the non-degeneracy guard of the
claim theorem below. -/
lemma zernike_outside_support_model (B : ℕ → ℤ → ℝ) (F : ℤ → ℤ → ℤ → ℝ → ℝ)
    (r θ : List ℝ) (n : ℕ) (m : ℤ) (norm : Bool) (i : ℕ) (x : ℝ)
    (hx : r.get? i = some x) (hlen : θ.length = r.length) (h1 : 1 < x) :
    (_zernike B F r θ n m norm).get? i = some 0 := by
  obtain ⟨hir, -⟩ := List.get?_eq_some.mp hx
  have hit : i < θ.length := by rw [hlen]; exact hir
  have ht : θ.get? i = some (θ.get ⟨i, hit⟩) := List.get?_eq_get hit
  have hrad : (_radial_zernike B F r n m).get? i = some (radialPoint B F n m x) := by
    unfold _radial_zernike
    rw [List.get?_map, hx]
    rfl
  have hrp : radialPoint B F n m x = 0 := by
    unfold radialPoint
    rw [if_neg (not_le.mpr h1)]
  have hz : (zernRaw B F r θ n m).get? i = some 0 := by
    unfold zernRaw
    rw [List.get?_map, get?_zip _ _ _ _ _ hrad ht]
    simp [hrp]
  unfold _zernike
  by_cases hpar : (m - (n : ℤ)) % 2 ≠ 0
  · rw [if_pos hpar, List.get?_map, hx]
    rfl
  · rw [if_neg hpar]
    by_cases hn : norm = true
    · rw [if_pos hn, List.get?_map, hz]
      simp
    · rw [if_neg hn]
      exact hz

/-- Wherever the program performs no zero division — normalization off,
or a nonzero norm of the unnormalized array — the IEEE-division model
`_zernikeF` is the exact-real model `_zernike` lane by lane. -/
lemma zernikeF_agrees (B : ℕ → ℤ → ℝ) (F : ℤ → ℤ → ℤ → ℝ → ℝ)
    (r θ : List ℝ) (n : ℕ) (m : ℤ) (norm : Bool)
    (h : norm = false ∨ l2norm (zernRaw B F r θ n m) ≠ 0) :
    _zernikeF B F r θ n m norm = (_zernike B F r θ n m norm).map PyVal.num := by
  unfold _zernikeF _zernike
  by_cases hpar : (m - (n : ℤ)) % 2 ≠ 0
  · rw [if_pos hpar, if_pos hpar, List.map_map]
    rfl
  · cases norm with
    | false =>
      rw [if_neg hpar, if_neg hpar, if_neg (by simp), if_neg (by simp)]
    | true =>
      have hN : l2norm (zernRaw B F r θ n m) ≠ 0 := by
        rcases h with h | h
        · cases h
        · exact h
      have hfun : (fun x => pyDiv x (l2norm (zernRaw B F r θ n m)))
          = fun x => PyVal.num (x / l2norm (zernRaw B F r θ n m)) := by
        funext x
        unfold pyDiv
        rw [if_neg hN]
      rw [if_neg hpar, if_neg hpar, if_pos rfl, if_pos rfl, hfun, List.map_map]
      rfl

/-- Counterexample for C6 as stated: with normalization on and a grid
whose only point has `r = 2 > 1`, the unnormalized array is identically
zero, its Euclidean norm is zero, and the program's elementwise
`zern /= 0.0` computes `0.0 / 0.0`; the value at that point is NaN, not
the claimed 0. -/
theorem zernike_outside_support_nan :
    (_zernikeF extB extF [(2 : ℝ)] [(0 : ℝ)] 1 1 true).get? 0 = some PyVal.nan ∧
    PyVal.nan ≠ PyVal.num 0 := by
  constructor
  · have hzr : zernRaw extB extF [(2 : ℝ)] [(0 : ℝ)] 1 1 = [0] := by
      unfold zernRaw _radial_zernike radialPoint
      norm_num [List.zip]
    have hl : l2norm [(0 : ℝ)] = 0 := by
      unfold l2norm
      norm_num
    unfold _zernikeF
    rw [if_neg (by decide), if_pos rfl, hzr, hl]
    simp [pyDiv]
  · intro h
    cases h

/-- Claim C6 (amended): support boundary — for every degree pair, every
interpretation of the external scipy functions and every sample index
whose radius exceeds 1, the evaluated polynomial at that sample point is
exactly 0, provided normalization is off or the unnormalized array has
nonzero Euclidean norm; in the remaining degenerate case (normalization
on, identically-zero unnormalized array) the program's division yields
NaN instead (see the counterexample). -/
theorem zernike_outside_support (B : ℕ → ℤ → ℝ) (F : ℤ → ℤ → ℤ → ℝ → ℝ)
    (r θ : List ℝ) (n : ℕ) (m : ℤ) (norm : Bool) (i : ℕ) (x : ℝ)
    (hx : r.get? i = some x) (hlen : θ.length = r.length) (h1 : 1 < x)
    (hnd : norm = false ∨ l2norm (zernRaw B F r θ n m) ≠ 0) :
    (_zernikeF B F r θ n m norm).get? i = some (PyVal.num 0) := by
  rw [zernikeF_agrees B F r θ n m norm hnd, List.get?_map,
    zernike_outside_support_model B F r θ n m norm i x hx hlen h1]
  rfl

/-- Witness for C6 at the concrete point `r = 2 > 1` with the pair
`(0, 0)` and normalization on: the second grid point `r = 0` makes the
unnormalized array `[0, 1]`, whose norm 1 is nonzero. -/
theorem zernike_outside_support_witness :
    (1 : ℝ) < 2 ∧
    l2norm (zernRaw extB extF [(2 : ℝ), 0] [(0 : ℝ), 0] 0 0) ≠ 0 ∧
    (_zernikeF extB extF [(2 : ℝ), 0] [(0 : ℝ), 0] 0 0 true).get? 0 = some (PyVal.num 0) := by
  have hzr : zernRaw extB extF [(2 : ℝ), 0] [(0 : ℝ), 0] 0 0 = [0, 1] := by
    unfold zernRaw _radial_zernike radialPoint
    norm_num [List.zip]
  have hl : l2norm (zernRaw extB extF [(2 : ℝ), 0] [(0 : ℝ), 0] 0 0) ≠ 0 := by
    rw [hzr]
    unfold l2norm
    norm_num
  exact ⟨by norm_num, hl,
    zernike_outside_support extB extF [(2 : ℝ), 0] [(0 : ℝ), 0] 0 0 true 0 2
      rfl rfl (by norm_num) (Or.inr hl)⟩

/-- Claim C10: piston constant — evaluating the degree pair `(0, 0)`
with normalization disabled yields exactly 1 at every sample point with
`r ≤ 1`, for every grid and every interpretation of the external scipy
functions. -/
theorem zernike_piston_one (B : ℕ → ℤ → ℝ) (F : ℤ → ℤ → ℤ → ℝ → ℝ)
    (r θ : List ℝ) (i : ℕ) (x : ℝ)
    (hx : r.get? i = some x) (hlen : θ.length = r.length) (hx1 : x ≤ 1) :
    (_zernike B F r θ 0 0 false).get? i = some 1 := by
  obtain ⟨hir, -⟩ := List.get?_eq_some.mp hx
  have hit : i < θ.length := by rw [hlen]; exact hir
  have ht : θ.get? i = some (θ.get ⟨i, hit⟩) := List.get?_eq_get hit
  have hrad : (_radial_zernike B F r 0 0).get? i = some (radialPoint B F 0 0 x) := by
    unfold _radial_zernike
    rw [List.get?_map, hx]
    rfl
  have hrp : radialPoint B F 0 0 x = 1 := by
    unfold radialPoint
    rw [if_pos hx1, if_pos ⟨rfl, rfl⟩]
  unfold _zernike
  rw [if_neg (by decide), if_neg (by simp)]
  unfold zernRaw
  rw [List.get?_map, get?_zip _ _ _ _ _ hrad ht]
  simp [hrp]

/-- Witness for C10 at the concrete in-domain point `r = 1/2`. -/
theorem zernike_piston_one_witness :
    ((1 : ℝ) / 2 ≤ 1) ∧
    (_zernike extB extF [(1 : ℝ) / 2] [(3 : ℝ)] 0 0 false).get? 0 = some 1 :=
  ⟨by norm_num,
    zernike_piston_one extB extF [1 / 2] [3] 0 (1 / 2) rfl rfl (by norm_num)⟩

/-- Claim C5: normalization — the evaluator's `norm` flag defaults to
enabled; the normalized result is the unnormalized result divided
elementwise by its own flattened Euclidean norm, and for any
non-degenerate grid (nonzero unnormalized norm) the normalized result
has Euclidean norm exactly 1. -/
theorem zernike_norm_default_unit (B : ℕ → ℤ → ℝ) (F : ℤ → ℤ → ℤ → ℝ → ℝ)
    (r θ : List ℝ) (n : ℕ) (m : ℤ)
    (h : l2norm (_zernike B F r θ n m false) ≠ 0) :
    _zernike B F r θ n m = _zernike B F r θ n m true ∧
    _zernike B F r θ n m true =
      (_zernike B F r θ n m false).map
        (fun x => x / l2norm (_zernike B F r θ n m false)) ∧
    l2norm (_zernike B F r θ n m true) = 1 := by
  by_cases hpar : (m - (n : ℤ)) % 2 ≠ 0
  · exfalso
    have hF : _zernike B F r θ n m false = r.map (fun _ => (0 : ℝ)) := by
      unfold _zernike
      rw [if_pos hpar]
    rw [hF] at h
    exact h (l2norm_zeros r)
  · have hF : _zernike B F r θ n m false = zernRaw B F r θ n m := by
      unfold _zernike
      rw [if_neg hpar, if_neg (by simp)]
    have hT : _zernike B F r θ n m true =
        (zernRaw B F r θ n m).map (fun x => x / l2norm (zernRaw B F r θ n m)) := by
      unfold _zernike
      rw [if_neg hpar, if_pos rfl]
    rw [hF] at h
    refine ⟨rfl, ?_, ?_⟩
    · rw [hT, hF]
    · rw [hT]
      exact l2norm_map_div _ h

/-- Witness for C5 on the grid of four points at the origin with the
piston pair `(0, 0)`: the unnormalized result is `[1, 1, 1, 1]`, whose
norm 2 is nonzero, and the normalized result has norm 1. -/
theorem zernike_norm_default_unit_witness :
    l2norm (_zernike extB extF [(0 : ℝ), 0, 0, 0] [(0 : ℝ), 0, 0, 0] 0 0 false) ≠ 0 ∧
    l2norm (_zernike extB extF [(0 : ℝ), 0, 0, 0] [(0 : ℝ), 0, 0, 0] 0 0 true) = 1 := by
  have e1 : _zernike extB extF [(0 : ℝ), 0, 0, 0] [(0 : ℝ), 0, 0, 0] 0 0 false
      = [1, 1, 1, 1] := by
    unfold _zernike zernRaw _radial_zernike radialPoint
    norm_num [List.zip]
  have hn4 : l2norm [(1 : ℝ), 1, 1, 1] = 2 := by
    unfold l2norm
    norm_num
    rw [show (4 : ℝ) = 2 ^ 2 by norm_num, Real.sqrt_sq (by norm_num : (0 : ℝ) ≤ 2)]
  have hN : l2norm (_zernike extB extF [(0 : ℝ), 0, 0, 0] [(0 : ℝ), 0, 0, 0] 0 0 false) ≠ 0 := by
    rw [e1, hn4]
    norm_num
  exact ⟨hN, (zernike_norm_default_unit extB extF _ _ 0 0 hN).2.2⟩

/-- Claim C9: batch consistency — whenever the batch entry point
succeeds on a sequence of Noll indices, its output stacks exactly the
rows obtained by evaluating each index individually through the same
entry point, in the caller-specified order. -/
theorem zernike_batch_consistency (B : ℕ → ℤ → ℝ) (F : ℤ → ℤ → ℤ → ℝ → ℝ)
    (r θ : List ℝ) (js : List ℤ) (norm : Bool) (rows : List (List ℝ))
    (h : zernike B F r θ js norm = PyResult.ok rows) :
    rows.length = js.length ∧
    ∀ i (h1 : i < js.length) (h2 : i < rows.length),
      zernike B F r θ [js.get ⟨i, h1⟩] norm = PyResult.ok [rows.get ⟨i, h2⟩] := by
  unfold zernike at h
  cases hnd : noll2degrees true js with
  | valueError => rw [hnd] at h; cases h
  | indexError => rw [hnd] at h; cases h
  | ok nm =>
    rw [hnd] at h
    injection h with h'
    subst h'
    obtain ⟨hall, hmap⟩ := noll2degrees_ok js nm hnd
    obtain ⟨hlen, hget⟩ := optMap_some oneNollPair js nm hmap
    constructor
    · rw [List.length_map, hlen]
    · intro i h1 h2
      have h2m : i < nm.length := by rw [hlen]; exact h1
      have h0 : 0 < js.get ⟨i, h1⟩ := hall _ (List.get_mem js i h1)
      have hone := hget i h1 h2m
      have hs := noll2degrees_singleton _ _ h0 hone
      unfold zernike
      rw [hs]
      have hgm : (nm.map (fun q => _zernike B F r θ q.1 q.2 norm)).get ⟨i, h2⟩
          = _zernike B F r θ (nm.get ⟨i, h2m⟩).1 (nm.get ⟨i, h2m⟩).2 norm := by
        simp
      rw [hgm]
      rfl

set_option maxRecDepth 10000 in
/-- Witness for C9: the batch call on the single Noll index 1 over the
one-point grid `r = 1/2`, `theta = 0` succeeds with the stacked row
`[[1]]`, and the lengths of the stack and of the index sequence agree. -/
theorem zernike_batch_consistency_witness :
    zernike extB extF [(1 : ℝ) / 2] [(0 : ℝ)] [1] false = PyResult.ok [[1]] ∧
    ([[(1 : ℝ)]]).length = ([(1 : ℤ)]).length := by
  have hnd : noll2degrees true [1] = PyResult.ok [((0 : ℕ), (0 : ℤ))] := by decide
  have hz : _zernike extB extF [(1 : ℝ) / 2] [(0 : ℝ)] 0 0 false = [1] := by
    unfold _zernike zernRaw _radial_zernike radialPoint
    norm_num [List.zip]
  have h : zernike extB extF [(1 : ℝ) / 2] [(0 : ℝ)] [1] false = PyResult.ok [[1]] := by
    unfold zernike
    rw [hnd]
    show PyResult.ok [_zernike extB extF [(1 : ℝ) / 2] [(0 : ℝ)] 0 0 false] = PyResult.ok [[1]]
    rw [hz]
  exact ⟨h, (zernike_batch_consistency extB extF [(1 : ℝ) / 2] [(0 : ℝ)] [1] false [[1]] h).1⟩
